import Mathlib

/-!
Verification of the RnboProject module-lifecycle scripts
(`scripts/createModule.py`, `scripts/removeModule.py`,
`scripts/test/removeAll.py`) against their specification.

The Python sources are shallowly embedded:
* file contents are `String` (Lean strings are lists of characters, which
  matches Python text strings restricted to the ASCII range actually used);
* Python string primitives (`strip`, `in`, `replace`, `readlines`,
  `sorted`) are re-implemented as executable Lean functions on character
  lists with Python semantics;
* filesystem state is an explicit record (`FsState`) holding the abstract
  pieces the scripts touch: existence of the template and modules roots,
  the set of module directories, and the registry file
  (`modules/CMakeLists.txt`) content, `none` meaning the file is missing;
* `sys.exit` codes become the `Nat` component of each result;
* printed messages of `removeModule.py` are collected in an output list
  (they are the only observable report of partial failure).
-/

/-! ## Python string primitives -/

/-- Python `str.isspace` for the ASCII whitespace characters
(space, tab, newline, carriage return, vertical tab, form feed). -/
def isPySpace (c : Char) : Bool :=
  c == ' ' || c == '\t' || c == '\n' || c == '\r' || c == '\x0b' || c == '\x0c'

/-- Python `str.strip()` on a character list: drop whitespace from both ends. -/
def pyStrip (l : List Char) : List Char :=
  ((l.dropWhile isPySpace).reverse.dropWhile isPySpace).reverse

/-- Python `str.strip()` on strings. -/
def pyStripS (s : String) : String := ⟨pyStrip s.data⟩

/-- Whether `pat` is a prefix of the second list (Python `str.startswith`). -/
def startsWithL : List Char → List Char → Bool
  | [], _ => true
  | _ :: _, [] => false
  | c :: cs, d :: ds => c == d && startsWithL cs ds

/-- Python substring containment `pat in s` (contiguous occurrence). -/
def hasSubstr (pat : List Char) : List Char → Bool
  | [] => pat.isEmpty
  | c :: cs => startsWithL pat (c :: cs) || hasSubstr pat cs

/-- Python substring containment on strings. -/
def hasSubstrS (pat s : String) : Bool := hasSubstr pat.data s.data

/-- Python `file.readlines()` line splitting: split after every newline
character, keeping the terminators; a final fragment with no terminator is
its own line; the empty text has no lines. -/
def splitLines : List Char → List (List Char)
  | [] => []
  | c :: cs =>
    if c = '\n' then ['\n'] :: splitLines cs
    else
      match splitLines cs with
      | [] => [[c]]
      | l :: ls => (c :: l) :: ls

/-- Python `readlines` on a string, producing strings (terminators kept). -/
def pylines (s : String) : List String := (splitLines s.data).map String.mk

/-- Python `file.writelines(ls)`: concatenation of the given strings. -/
def concatS (ls : List String) : String := ⟨(ls.map String.data).flatten⟩

/-- Fuel-driven core of Python `str.replace`: scan left to right, replacing
each non-overlapping occurrence of `pat` by `rep`.  The fuel is the length
of the scanned list, which suffices because every step consumes at least
one character (the scripts only ever pass the non-empty placeholder
tokens as `pat`). -/
def replaceFuel (pat rep : List Char) : Nat → List Char → List Char
  | _, [] => []
  | 0, s => s
  | fuel + 1, c :: cs =>
    if startsWithL pat (c :: cs) then
      rep ++ replaceFuel pat rep fuel ((c :: cs).drop pat.length)
    else
      c :: replaceFuel pat rep fuel cs

/-- Python `s.replace(pat, rep)` for non-empty `pat`. -/
def pyReplace (s pat rep : String) : String :=
  ⟨replaceFuel pat.data rep.data s.data.length s.data⟩

/-- Sequential application of a substitution mapping in its listed order:
the loop `for placeholder, value in substitutions.items(): content =
content.replace(placeholder, value)` of `substitute_in_file`. -/
def applySubs (subs : List (String × String)) (s : String) : String :=
  subs.foldl (fun acc pv => pyReplace acc pv.1 pv.2) s

/-- Code-point lexicographic comparison on character lists: the order used
by Python `sorted` on strings. -/
def lexLe : List Char → List Char → Bool
  | [], _ => true
  | _ :: _, [] => false
  | c :: cs, d :: ds => if c = d then lexLe cs ds else decide (c < d)

/-- The string order used by Python `sorted`. -/
def strLe (a b : String) : Prop := lexLe a.data b.data = true

instance : DecidableRel strLe := fun a b =>
  inferInstanceAs (Decidable (lexLe a.data b.data = true))

/-! ## createModule.py -/

/-- Embeds `createModule.validate_module_id`: the checks run in source order
(emptiness, length 4, `isalnum`, leading `isalpha`, equality with
`upper()`).  Character classes follow the ASCII reading of the Python
predicates, the only range the scripts use. -/
def validate_module_id (s : String) : Bool :=
  if s.data.isEmpty then false
  else if s.data.length != 4 then false
  else if !(s.data.all Char.isAlphanum) then false
  else if !(match s.data with | [] => false | c :: _ => c.isAlpha) then false
  else if s.data != s.data.map Char.toUpper then false
  else true

/-- The registry inclusion directive `add_subdirectory({module_id})`. -/
def directive (I : String) : String := "add_subdirectory(" ++ I ++ ")"

/-- Embeds `createModule.update_modules_cmake`, acting on the registry file
content: if the directive occurs anywhere in the content (Python
`add_line in content`), report "already present" (`false`) and leave the
file alone; otherwise append the directive plus a newline (the file is
opened in append mode). The missing-file `sys.exit(1)` branch is handled
by `createMain`. -/
def update_modules_cmake (content : String) (I : String) : String × Bool :=
  if hasSubstrS (directive I) content then (content, false)
  else (content ++ directive I ++ "\n", true)

/-! ## removeModule.py -/

/-- Embeds `removeModule.remove_from_cmake` on the registry content: keep the
lines (Python `readlines`) whose stripped text differs from the stripped
target line, and rewrite the file only when some line was dropped.
Returns the resulting content and whether a line was removed. -/
def remove_from_cmake (content : String) (I : String) : String × Bool :=
  let lines := pylines content
  let target := pyStripS (directive I ++ "\n")
  let kept := lines.filter (fun l => pyStripS l != target)
  if kept.length < lines.length then (concatS kept, true) else (content, false)

/-- A top-level entry of the modules root as seen by `Path.iterdir`. -/
structure DirEntry where
  name : String
  isDir : Bool
deriving DecidableEq

/-- Embeds `removeModule.list_available_modules` (identical in
`test/removeAll.py`): keep directory entries outside the reserved set,
take their names, and sort them as Python `sorted` does. -/
def list_available_modules (entries : List DirEntry) : List String :=
  List.insertionSort strLe
    ((entries.filter
      (fun e => e.isDir && !(e.name == "common" || e.name == "inc" || e.name == ".git"))).map
      DirEntry.name)

/-! ## Lifecycle state and orchestration -/

/-- The filesystem state the scripts read and mutate. -/
structure FsState where
  /-- Whether `template/module` exists. -/
  templateOk : Bool
  /-- the `modules` root exists. -/
  modulesRootOk : Bool
  /-- names of the module directories under `modules/`. -/
  modules : List String
  /-- content of `modules/CMakeLists.txt`; `none` when the file is missing. -/
  registry : Option String
deriving DecidableEq

/-- Embeds `createModule.main` in non-interactive mode: directory preconditions,
validation (`collect_module_info`), the already-exists guard and the
template copy of `copy_and_substitute` (abstracted to registering the new
directory name; file contents are handled by the substitution model
below), then `update_modules_cmake`.  Result: exit code and final state. -/
def createMain (st : FsState) (I : String) : Nat × FsState :=
  if !st.templateOk then (1, st)
  else if !st.modulesRootOk then (1, st)
  else if !(validate_module_id I) then (1, st)
  else if I ∈ st.modules then (1, st)
  else
    let st1 : FsState := { st with modules := st.modules ++ [I] }
    match st1.registry with
    | none => (1, st1)
    | some c => (0, { st1 with registry := some (update_modules_cmake c I).1 })

/-- Whether the registry (an optional file) holds a registration line for
`I`: some physical line whose stripped text is the directive. -/
def linePresent (reg : Option String) (I : String) : Bool :=
  match reg with
  | none => false
  | some c => (pylines c).any (fun l => pyStripS l == directive I)

/-- Path string used in the messages of `removeModule.py` (separators are
rendered with `/`). -/
def cmakePath : String := "modules/CMakeLists.txt"

/-- The registry half of `removeModule.main`: `remove_from_cmake` together
with the messages it prints on each branch. -/
def removeCmakeStep (reg : Option String) (I : String) :
    Option String × Bool × List String :=
  match reg with
  | none => (none, false, ["Warning: CMakeLists.txt not found: " ++ cmakePath])
  | some c =>
    let r := remove_from_cmake c I
    if r.2 then (some r.1, true, ["Removed \x27" ++ I ++ "\x27 from CMakeLists.txt"])
    else (some r.1, false,
      ["Warning: Module \x27" ++ I ++ "\x27 was not found in CMakeLists.txt"])

/-- Embeds `removeModule.remove_module_directory` with its messages.  `rmFault`
injects the one IO outcome the source catches there: `shutil.rmtree`
raising (the exception text is abstracted to `OSError`). -/
def removeDirStep (mods : List String) (I : String) (rmFault : Bool) :
    List String × Bool × List String :=
  if I ∈ mods then
    if rmFault then
      (mods, false,
        ["Removing module directory: modules/" ++ I,
         "Error removing directory modules/" ++ I ++ ": OSError"])
    else
      (mods.filter (fun n => n != I), true,
        ["Removing module directory: modules/" ++ I,
         "Successfully removed directory for module \x27" ++ I ++ "\x27"])
  else
    (mods, false, ["Warning: Module directory modules/" ++ I ++ " does not exist"])

/-- Result of `removeModule.main`: exit code, final state, the two step
results (`remove_from_cmake`, `remove_module_directory`) and the printed
output. -/
structure RemoveResult where
  exitCode : Nat
  state : FsState
  regOK : Bool
  dirOK : Bool
  output : List String
deriving DecidableEq

/-- Embeds `removeModule.main` with `--force` (no interactive confirmation):
root precondition, module existence precondition, then the registry step
followed by the directory step, both always attempted, with the summary
chosen by the conjunction of the two step results. -/
def removeMain (st : FsState) (I : String) (rmFault : Bool) : RemoveResult :=
  if !st.modulesRootOk then
    ⟨1, st, false, false, ["Error: Modules directory not found!"]⟩
  else if I ∉ st.modules then
    ⟨1, st, false, false, ["Error: Module \x27" ++ I ++ "\x27 not found in modules"]⟩
  else
    let rc := removeCmakeStep st.registry I
    let rd := removeDirStep st.modules I rmFault
    let success := rc.2.1 && rd.2.1
    ⟨if success then 0 else 1,
     { st with registry := rc.1, modules := rd.1 },
     rc.2.1, rd.2.1,
     rc.2.2 ++ rd.2.2 ++
       [if success then "Module \x27" ++ I ++ "\x27 has been successfully removed!"
        else "Module \x27" ++ I ++ "\x27 was partially removed. Please check manually."]⟩

/-! ## Template substitution (Substitutor) -/

/-- A file under the copied tree, as `substitute_in_file` classifies it:
UTF-8 text, binary (read raises `UnicodeDecodeError`), or a file whose
read or write raises some other IO error.  Non-text payloads are opaque. -/
inductive FileData where
  | text (s : String)
  | binary (payload : Nat)
  | unreadable (payload : Nat)
deriving DecidableEq

/-- Per-file outcome reported by `substitute_in_file`. -/
inductive FileResult where
  | substituted (s : String)
  | skippedBinary (payload : Nat)
  | errored (payload : Nat)
deriving DecidableEq

/-- Embeds `createModule.substitute_in_file`: text is rewritten by the sequential
replacement loop; a `UnicodeDecodeError` is reported as a skip, leaving
the file untouched; any other exception is reported and swallowed. -/
def substitute_in_file (subs : List (String × String)) : FileData → FileResult
  | .text s => .substituted (applySubs subs s)
  | .binary p => .skippedBinary p
  | .unreadable p => .errored p

/-- The `os.walk` loop of `copy_and_substitute`: every file of the copied
tree is processed in turn by `substitute_in_file`. -/
def copy_and_substitute_walk (subs : List (String × String)) :
    List FileData → List FileResult
  | [] => []
  | f :: fs => substitute_in_file subs f :: copy_and_substitute_walk subs fs

/-- The placeholder tokens in the order of `collect_module_info`, paired
with the supplied values. -/
def standardSubs (mod name descr brand author email url : String) :
    List (String × String) :=
  [("__MOD__", mod), ("__NAME__", name), ("__DESCRIPTION__", descr),
   ("__BRAND__", brand), ("__AUTHOR__", author), ("__EMAIL__", email),
   ("__URL__", url)]

/-! ## Line-structure lemmas for the readlines model -/

/-- A physical line: non-empty, with no newline before its final character. -/
def isLine (l : List Char) : Bool :=
  !l.isEmpty && l.dropLast.all (fun c => c != '\n')

/-- A newline-terminated physical line. -/
def isTermLine (l : List Char) : Bool :=
  isLine l && l.getLast? == some '\n'

/-- A well-formed `readlines` decomposition: every element is a physical
line and every element but the last is newline-terminated. -/
def linesWF : List (List Char) → Bool
  | [] => true
  | [l] => isLine l
  | l :: l₂ :: ls => isTermLine l && linesWF (l₂ :: ls)

theorem splitLines_nil : splitLines [] = [] := rfl

theorem splitLines_cons (c : Char) (cs : List Char) :
    splitLines (c :: cs) =
      if c = '\n' then ['\n'] :: splitLines cs
      else
        match splitLines cs with
        | [] => [[c]]
        | l :: ls => (c :: l) :: ls := rfl

theorem splitLines_eq_nil_iff (l : List Char) : splitLines l = [] ↔ l = [] := by
  constructor
  · intro h
    cases l with
    | nil => rfl
    | cons c cs =>
      simp only [splitLines] at h
      split at h
      · simp at h
      · split at h <;> simp_all
  · intro h; subst h; rfl

theorem flatten_splitLines (l : List Char) : (splitLines l).flatten = l := by
  induction l with
  | nil => rfl
  | cons c cs ih =>
    simp only [splitLines]
    split
    · simp_all
    · cases h : splitLines cs with
      | nil =>
        have : cs = [] := (splitLines_eq_nil_iff cs).mp h
        subst this; simp
      | cons t ts =>
        rw [h] at ih
        simp only [List.flatten_cons] at ih ⊢
        simp [← ih]

theorem getLast?_cons_ne_nil {α : Type} (c : α) {t : List α} (h : t ≠ []) :
    (c :: t).getLast? = t.getLast? := by
  cases t with
  | nil => exact absurd rfl h
  | cons a as => exact List.getLast?_cons_cons

theorem isLine_cons (c : Char) {t : List Char} (hc : c ≠ '\n') (ht : t ≠ [])
    (h : isLine t = true) : isLine (c :: t) = true := by
  simp only [isLine, Bool.and_eq_true, List.all_eq_true] at h ⊢
  obtain ⟨_, hall⟩ := h
  refine ⟨by simp, ?_⟩
  intro x hx
  rw [List.dropLast_cons_of_ne_nil ht] at hx
  rcases List.mem_cons.mp hx with hx | hx
  · subst hx; simpa using hc
  · exact hall x hx

theorem wf_splitLines (l : List Char) : linesWF (splitLines l) = true := by
  induction l with
  | nil => rfl
  | cons c cs ih =>
    simp only [splitLines]
    split
    · cases h : splitLines cs with
      | nil => decide
      | cons t ts =>
        rw [h] at ih
        show linesWF (['\n'] :: t :: ts) = true
        simp only [linesWF, Bool.and_eq_true] at ih ⊢
        exact ⟨by decide, ih⟩
    · rename_i hcn
      cases h : splitLines cs with
      | nil =>
        show linesWF [[c]] = true
        simp [linesWF, isLine]
      | cons t ts =>
        rw [h] at ih
        show linesWF ((c :: t) :: ts) = true
        cases ts with
        | nil =>
          simp only [linesWF] at ih ⊢
          have hne' : t ≠ [] := by
            intro hh
            rw [hh] at ih
            simp [isLine] at ih
          exact isLine_cons c hcn hne' ih
        | cons t₂ ts₂ =>
          simp only [linesWF, Bool.and_eq_true] at ih ⊢
          refine ⟨?_, ih.2⟩
          rcases ih with ⟨hterm, _⟩
          simp only [isTermLine, Bool.and_eq_true] at hterm ⊢
          obtain ⟨hline, hlast⟩ := hterm
          have hne' : t ≠ [] := by
            intro hh
            rw [hh] at hline
            simp [isLine] at hline
          refine ⟨isLine_cons c hcn hne' hline, ?_⟩
          rw [getLast?_cons_ne_nil c hne']
          exact hlast

theorem isLine_tail {c d : Char} {ds : List Char} (h : isLine (c :: d :: ds) = true) :
    c ≠ '\n' ∧ isLine (d :: ds) = true := by
  simp only [isLine, Bool.and_eq_true, List.all_eq_true] at h ⊢
  obtain ⟨-, hall⟩ := h
  have hd : (c :: d :: ds).dropLast = c :: (d :: ds).dropLast := by
    exact List.dropLast_cons_of_ne_nil (by simp)
  rw [hd] at hall
  refine ⟨?_, by simp, fun x hx => hall x (List.mem_cons_of_mem c hx)⟩
  have := hall c (List.mem_cons_self c _)
  simpa using this

theorem isTermLine_tail {c d : Char} {ds : List Char}
    (h : isTermLine (c :: d :: ds) = true) :
    c ≠ '\n' ∧ isTermLine (d :: ds) = true := by
  simp only [isTermLine, Bool.and_eq_true] at h ⊢
  obtain ⟨hline, hlast⟩ := h
  obtain ⟨hc, hline'⟩ := isLine_tail hline
  refine ⟨hc, hline', ?_⟩
  rw [getLast?_cons_ne_nil c (by simp)] at hlast
  exact hlast

theorem splitLines_single {l : List Char} (h : isLine l = true) : splitLines l = [l] := by
  induction l with
  | nil => simp [isLine] at h
  | cons c cs ih =>
    cases cs with
    | nil =>
      by_cases hc : c = '\n'
      · subst hc; rfl
      · simp [splitLines, hc]
    | cons d ds =>
      obtain ⟨hc, hline⟩ := isLine_tail h
      rw [splitLines_cons, if_neg hc, ih hline]

theorem splitLines_term_append {l : List Char} (r : List Char)
    (h : isTermLine l = true) : splitLines (l ++ r) = l :: splitLines r := by
  induction l with
  | nil => simp [isTermLine, isLine] at h
  | cons c cs ih =>
    cases cs with
    | nil =>
      have hc : c = '\n' := by
        simp only [isTermLine, Bool.and_eq_true] at h
        simpa using h.2
      subst hc
      simp [splitLines]
    | cons d ds =>
      obtain ⟨hc, hterm⟩ := isTermLine_tail h
      rw [List.cons_append, splitLines_cons, if_neg hc, ih hterm]

theorem splitLines_flatten {ls : List (List Char)} (h : linesWF ls = true) :
    splitLines ls.flatten = ls := by
  induction ls with
  | nil => rfl
  | cons l ls ih =>
    cases ls with
    | nil =>
      have : isLine l = true := by simpa [linesWF] using h
      simpa using splitLines_single this
    | cons l₂ ls₂ =>
      simp only [linesWF, Bool.and_eq_true] at h
      rw [List.flatten_cons, splitLines_term_append _ h.1, ih h.2]

theorem linesWF_tail {a : List Char} {ls : List (List Char)}
    (h : linesWF (a :: ls) = true) : linesWF ls = true := by
  cases ls with
  | nil => rfl
  | cons b bs => simp only [linesWF, Bool.and_eq_true] at h; exact h.2

theorem linesWF_head {a : List Char} {ls : List (List Char)}
    (h : linesWF (a :: ls) = true) : isLine a = true := by
  cases ls with
  | nil => simpa [linesWF] using h
  | cons b bs =>
    simp only [linesWF, isTermLine, Bool.and_eq_true] at h
    exact h.1.1

theorem linesWF_head_term {a : List Char} {ls : List (List Char)} (hne : ls ≠ [])
    (h : linesWF (a :: ls) = true) : isTermLine a = true := by
  cases ls with
  | nil => exact absurd rfl hne
  | cons b bs =>
    simp only [linesWF, Bool.and_eq_true] at h
    exact h.1

theorem linesWF_cons {a : List Char} {ls : List (List Char)}
    (hl : isLine a = true) (ht : ls ≠ [] → isTermLine a = true)
    (h : linesWF ls = true) : linesWF (a :: ls) = true := by
  cases ls with
  | nil => simpa [linesWF] using hl
  | cons b bs =>
    simp only [linesWF, Bool.and_eq_true]
    exact ⟨ht (by simp), h⟩

theorem linesWF_sublist {ls₁ ls₂ : List (List Char)} (h : ls₁.Sublist ls₂)
    (hwf : linesWF ls₂ = true) : linesWF ls₁ = true := by
  induction h with
  | slnil => rfl
  | cons a h ih => exact ih (linesWF_tail hwf)
  | cons₂ a h ih =>
    rename_i s t
    refine linesWF_cons (linesWF_head hwf) ?_ (ih (linesWF_tail hwf))
    intro hsne
    have htne : t ≠ [] := by
      intro hh
      subst hh
      exact hsne (List.sublist_nil.mp h)
    exact linesWF_head_term htne hwf

theorem splitLines_append_of_newline {l : List Char} (r : List Char)
    (h : l = [] ∨ l.getLast? = some '\n') :
    splitLines (l ++ r) = splitLines l ++ splitLines r := by
  induction l with
  | nil => simp [splitLines_nil]
  | cons c cs ih =>
    rcases h with h | h
    · simp at h
    cases hcs : cs with
    | nil =>
      subst hcs
      have hc : c = '\n' := by simpa using h
      subst hc
      simp [splitLines_cons, splitLines_nil]
    | cons d ds =>
      have hne : cs ≠ [] := by rw [hcs]; simp
      have h' : cs.getLast? = some '\n' := by
        rw [getLast?_cons_ne_nil c hne] at h
        exact h
      rw [← hcs] at *
      have ihr := ih (Or.inr h')
      by_cases hc : c = '\n'
      · subst hc
        rw [List.cons_append, splitLines_cons, if_pos rfl, ihr,
          splitLines_cons, if_pos rfl, List.cons_append]
      · cases hsp : splitLines cs with
        | nil =>
          exact absurd ((splitLines_eq_nil_iff cs).mp hsp) hne
        | cons t ts =>
          rw [hsp] at ihr
          rw [List.cons_append, splitLines_cons, if_neg hc, ihr,
            splitLines_cons, if_neg hc, hsp]
          rfl

theorem mem_splitLines_decomp {x l : List Char} (h : x ∈ splitLines l) :
    ∃ a b, l = a ++ x ++ b := by
  obtain ⟨s, t, hst⟩ := List.mem_iff_append.mp h
  refine ⟨s.flatten, t.flatten, ?_⟩
  have : (splitLines l).flatten = l := flatten_splitLines l
  rw [hst] at this
  simp only [List.flatten_append, List.flatten_cons] at this
  rw [← this]
  simp [List.append_assoc]

/-! ## Substring lemmas -/

theorem startsWithL_iff {pat s : List Char} :
    startsWithL pat s = true ↔ ∃ t, s = pat ++ t := by
  induction pat generalizing s with
  | nil => simp [startsWithL]
  | cons c cs ih =>
    cases s with
    | nil => simp [startsWithL]
    | cons d ds =>
      simp only [startsWithL, Bool.and_eq_true, beq_iff_eq, ih, List.cons_append,
        List.cons_eq_cons]
      constructor
      · rintro ⟨rfl, t, rfl⟩; exact ⟨t, rfl, rfl⟩
      · rintro ⟨t, rfl, rfl⟩; exact ⟨rfl, t, rfl⟩

theorem hasSubstr_iff {pat s : List Char} :
    hasSubstr pat s = true ↔ ∃ a b, s = a ++ pat ++ b := by
  induction s with
  | nil =>
    simp only [hasSubstr, List.isEmpty_iff]
    constructor
    · rintro rfl; exact ⟨[], [], rfl⟩
    · rintro ⟨a, b, hab⟩
      rcases List.append_eq_nil.mp hab.symm with ⟨h1, h2⟩
      exact (List.append_eq_nil.mp h1).2
  | cons c cs ih =>
    simp only [hasSubstr, Bool.or_eq_true, startsWithL_iff, ih]
    constructor
    · rintro (⟨t, ht⟩ | ⟨a, b, hab⟩)
      · exact ⟨[], t, by simpa using ht⟩
      · exact ⟨c :: a, b, by simp [hab]⟩
    · rintro ⟨a, b, hab⟩
      cases a with
      | nil => exact Or.inl ⟨b, by simpa using hab⟩
      | cons a' as =>
        right
        refine ⟨as, b, ?_⟩
        simp only [List.cons_append, List.append_assoc] at hab
        rw [List.append_assoc]
        exact (List.cons_eq_cons.mp hab).2

theorem hasSubstr_append_self (pat a b : List Char) :
    hasSubstr pat (a ++ pat ++ b) = true := hasSubstr_iff.mpr ⟨a, b, rfl⟩

/-! ## Strip lemmas -/

theorem pyStrip_decomp (l : List Char) : ∃ a b, l = a ++ pyStrip l ++ b := by
  refine ⟨l.takeWhile isPySpace,
    ((l.dropWhile isPySpace).reverse.takeWhile isPySpace).reverse, ?_⟩
  have h1 : l.takeWhile isPySpace ++ l.dropWhile isPySpace = l :=
    List.takeWhile_append_dropWhile _ _
  have h2 : (l.dropWhile isPySpace).reverse.takeWhile isPySpace ++
      (l.dropWhile isPySpace).reverse.dropWhile isPySpace =
      (l.dropWhile isPySpace).reverse :=
    List.takeWhile_append_dropWhile _ _
  have h3 : l.dropWhile isPySpace =
      pyStrip l ++ ((l.dropWhile isPySpace).reverse.takeWhile isPySpace).reverse := by
    conv_lhs => rw [← List.reverse_reverse (l.dropWhile isPySpace), ← h2]
    rw [List.reverse_append, pyStrip]
  rw [List.append_assoc, ← h3, h1]

theorem pyStrip_append_newline (l : List Char) :
    pyStrip (l ++ ['\n']) = pyStrip l := by
  by_cases h : l.dropWhile isPySpace = []
  · have h1 : (l ++ ['\n']).dropWhile isPySpace = [] := by
      rw [List.dropWhile_append, h]
      simp
      decide
    unfold pyStrip
    rw [h, h1]
  · have h1 : (l ++ ['\n']).dropWhile isPySpace = l.dropWhile isPySpace ++ ['\n'] := by
      rw [List.dropWhile_append]
      simp [h]
    unfold pyStrip
    rw [h1, List.reverse_append]
    have h2 : (['\n'].reverse ++ (l.dropWhile isPySpace).reverse).dropWhile isPySpace
        = (l.dropWhile isPySpace).reverse.dropWhile isPySpace := by
      show ('\n' :: (l.dropWhile isPySpace).reverse).dropWhile isPySpace = _
      rw [List.dropWhile_cons, if_pos (by decide : isPySpace '\n' = true)]
    rw [h2]

theorem pyStrip_keep {c d : Char} {m : List Char}
    (hc : isPySpace c = false) (hd : isPySpace d = false) :
    pyStrip (c :: (m ++ [d])) = c :: (m ++ [d]) := by
  unfold pyStrip
  have h1 : (c :: (m ++ [d])).dropWhile isPySpace = c :: (m ++ [d]) := by
    rw [List.dropWhile_cons, if_neg (by simp [hc])]
  rw [h1]
  have h2 : (c :: (m ++ [d])).reverse = d :: (m.reverse ++ [c]) := by
    simp
  rw [h2, List.dropWhile_cons, if_neg (by simp [hd])]
  simp

/-! ## Directive shape -/

theorem directive_data (I : String) :
    (directive I).data = 'a' :: (("dd_subdirectory(".data ++ I.data) ++ [')']) := by
  show ("add_subdirectory(" ++ (I ++ ")")).data = _
  rw [String.data_append, String.data_append]
  show 'a' :: "dd_subdirectory(".data ++ (I.data ++ [')']) = _
  simp [List.append_assoc]

/-- Stripping the target line of `remove_from_cmake` yields exactly the
directive: the directive starts with a letter and ends with a closing
parenthesis, so only the trailing newline is removed. -/
theorem pyStripS_directive (I : String) :
    pyStripS (directive I ++ "\n") = directive I := by
  apply String.ext
  show pyStrip (directive I ++ "\n").data = (directive I).data
  rw [String.data_append]
  show pyStrip ((directive I).data ++ ['\n']) = (directive I).data
  rw [pyStrip_append_newline, directive_data]
  exact pyStrip_keep (by decide) (by decide)

/-- A character list whose strip equals `d` contains `d` as a substring. -/
theorem substr_of_strip_eq {x : List Char} {d : List Char} (h : pyStrip x = d) :
    hasSubstr d x = true := by
  obtain ⟨a, b, hab⟩ := pyStrip_decomp x
  rw [h] at hab
  exact hasSubstr_iff.mpr ⟨a, b, hab⟩

/-- A line of a file whose strip equals `d` makes `d` a substring of the
whole file content. -/
theorem hasSubstr_of_line_strip {c x d : String}
    (hx : x ∈ pylines c) (hs : pyStripS x = d) : hasSubstrS d c = true := by
  have hx' : x.data ∈ splitLines c.data := by
    simp only [pylines, List.mem_map] at hx
    obtain ⟨y, hy, hyx⟩ := hx
    have : y = x.data := by rw [← hyx]
    rwa [← this]
  obtain ⟨a, b, hab⟩ := mem_splitLines_decomp hx'
  have hstrip : pyStrip x.data = d.data := congrArg String.data hs
  obtain ⟨a', b', hab'⟩ := pyStrip_decomp x.data
  rw [hstrip] at hab'
  rw [hab'] at hab
  refine hasSubstr_iff.mpr ⟨a ++ a', b' ++ b, ?_⟩
  rw [hab]
  simp [List.append_assoc]

/-! ## Replace lemmas -/

theorem replaceFuel_succ_cons (pat rep : List Char) (n : Nat) (c : Char)
    (cs : List Char) :
    replaceFuel pat rep (n + 1) (c :: cs) =
      if startsWithL pat (c :: cs) then
        rep ++ replaceFuel pat rep n ((c :: cs).drop pat.length)
      else c :: replaceFuel pat rep n cs := rfl

theorem replaceFuel_no_occ {pat : List Char} (rep : List Char) :
    ∀ (fuel : Nat) (s : List Char), hasSubstr pat s = false →
      replaceFuel pat rep fuel s = s := by
  intro fuel
  induction fuel with
  | zero => intro s _; cases s <;> rfl
  | succ n ih =>
    intro s h
    cases s with
    | nil => rfl
    | cons c cs =>
      simp only [hasSubstr, Bool.or_eq_false_iff] at h
      rw [replaceFuel_succ_cons, if_neg (by simp [h.1]), ih cs h.2]

theorem pyReplace_no_occ {s pat rep : String} (h : hasSubstrS pat s = false) :
    pyReplace s pat rep = s :=
  String.ext (replaceFuel_no_occ _ _ _ h)

theorem applySubs_no_occ {subs : List (String × String)} {s : String}
    (h : subs.all (fun pv => !(hasSubstrS pv.1 s)) = true) :
    applySubs subs s = s := by
  induction subs with
  | nil => rfl
  | cons pv rest ih =>
    simp only [List.all_cons, Bool.and_eq_true, Bool.not_eq_true'] at h
    show applySubs rest (pyReplace s pv.1 pv.2) = s
    rw [pyReplace_no_occ h.1]
    exact ih (by simpa [List.all_eq_true, Bool.not_eq_true'] using h.2)

/-! ## Character-map lemma for the uppercase check -/

theorem map_eq_self_iff_forall {l : List Char} {f : Char → Char} :
    l.map f = l ↔ ∀ c ∈ l, f c = c := by
  induction l with
  | nil => simp
  | cons c cs ih =>
    simp only [List.map_cons, List.cons_eq_cons, List.mem_cons, ih]
    constructor
    · rintro ⟨h1, h2⟩ x hx
      rcases hx with rfl | hx
      · exact h1
      · exact h2 x hx
    · intro h
      exact ⟨h c (Or.inl rfl), fun x hx => h x (Or.inr hx)⟩

/-! ## String-level transfer lemmas -/

theorem data_pylines (c : String) :
    (pylines c).map String.data = splitLines c.data := by
  rw [pylines, List.map_map]
  have h : (String.data ∘ String.mk) = id := rfl
  rw [h, List.map_id]

theorem linesWF_pylines (c : String) :
    linesWF ((pylines c).map String.data) = true := by
  rw [data_pylines]
  exact wf_splitLines _

theorem pylines_concatS {ls : List String}
    (h : linesWF (ls.map String.data) = true) : pylines (concatS ls) = ls := by
  rw [pylines]
  show List.map String.mk (splitLines (ls.map String.data).flatten) = ls
  rw [splitLines_flatten h, List.map_map]
  have hid : (String.mk ∘ String.data) = id := by
    funext s
    rfl
  rw [hid, List.map_id]

/-! ## Registry helpers -/

/-- Appending a newline-free line to a newline-terminated (or empty) text
adds exactly one physical line. -/
theorem pylines_append_line {c x : String}
    (hnl : c.data = [] ∨ c.data.getLast? = some '\n')
    (hx : isLine x.data = true) :
    pylines (c ++ x) = pylines c ++ [x] := by
  rw [pylines, String.data_append, splitLines_append_of_newline _ hnl,
    splitLines_single hx, List.map_append]
  rfl

/-- Equation for `remove_from_cmake` with the stripped target line replaced
by the directive itself. -/
theorem remove_from_cmake_eq (c I : String) :
    remove_from_cmake c I =
      (if (((pylines c).filter (fun l => pyStripS l != directive I)).length <
          (pylines c).length)
        then (concatS ((pylines c).filter (fun l => pyStripS l != directive I)), true)
        else (c, false)) := by
  unfold remove_from_cmake
  rw [pyStripS_directive]

/-- When a removal happened, the lines of the rewritten registry are
exactly the original lines whose stripped text is not the directive,
kept in their original order. -/
theorem remove_from_cmake_lines {c I : String}
    (h : (remove_from_cmake c I).2 = true) :
    pylines (remove_from_cmake c I).1 =
      (pylines c).filter (fun l => pyStripS l != directive I) := by
  rw [remove_from_cmake_eq] at h ⊢
  by_cases hlt : (((pylines c).filter (fun l => pyStripS l != directive I)).length <
      (pylines c).length)
  · rw [if_pos hlt]
    apply pylines_concatS
    have hsub :
        (((pylines c).filter (fun l => pyStripS l != directive I)).map
          String.data).Sublist ((pylines c).map String.data) :=
      (List.filter_sublist _).map _
    exact linesWF_sublist hsub (linesWF_pylines c)
  · rw [if_neg hlt] at h
    simp at h

/-- The removal flag of `remove_from_cmake` is set exactly when some line
strips to the directive. -/
theorem remove_from_cmake_flag (c I : String) :
    (remove_from_cmake c I).2 = true ↔
      ∃ l ∈ pylines c, pyStripS l = directive I := by
  rw [remove_from_cmake_eq]
  by_cases hlt : (((pylines c).filter (fun l => pyStripS l != directive I)).length <
      (pylines c).length)
  · rw [if_pos hlt]
    simp only [true_iff]
    obtain ⟨x, hx, hpx⟩ := List.length_filter_lt_length_iff_exists.mp hlt
    exact ⟨x, hx, by simpa [bne_iff_ne] using hpx⟩
  · rw [if_neg hlt]
    constructor
    · intro hfalse
      exact absurd hfalse (by simp)
    · rintro ⟨l, hl, he⟩
      exact (hlt (List.length_filter_lt_length_iff_exists.mpr
        ⟨l, hl, by simp [bne_iff_ne, he]⟩)).elim

/-! ## Validation helpers -/

theorem validate_all_alnum {I : String} (h : validate_module_id I = true) :
    ∀ ch ∈ I.data, ch.isAlphanum = true := by
  unfold validate_module_id at h
  split_ifs at h with h1 h2 h3 h4 h5
  intro ch hch
  cases hall : I.data.all Char.isAlphanum with
  | false => exact absurd (by simp [hall]) h3
  | true => exact List.all_eq_true.mp hall ch hch

theorem directive_no_newline {I : String} (h : validate_module_id I = true) :
    isLine (directive I ++ "\n").data = true := by
  rw [String.data_append]
  show isLine ((directive I).data ++ ['\n']) = true
  simp only [isLine, Bool.and_eq_true, List.all_eq_true]
  refine ⟨by simp, ?_⟩
  intro x hx
  rw [List.dropLast_concat] at hx
  rw [directive_data] at hx
  have hlit : "dd_subdirectory(".data.all (fun ch => ch != '\n') = true := by decide
  rcases List.mem_cons.mp hx with rfl | hx
  · decide
  · rcases List.mem_append.mp hx with hx | hx
    · rcases List.mem_append.mp hx with hx | hx
      · exact List.all_eq_true.mp hlit x hx
      · have := validate_all_alnum h x hx
        simp only [bne_iff_ne, ne_eq]
        intro hh
        subst hh
        exact absurd this (by decide)
    · have hx' : x = ')' := by simpa using hx
      subst hx'
      decide

/-! ## Orchestration helpers -/

/-- Equation for `createMain` with all guards known to pass, before the registry match. -/
theorem createMain_eq_of {st : FsState} {I : String}
    (h1 : st.templateOk = true) (h2 : st.modulesRootOk = true)
    (h3 : validate_module_id I = true) (h4 : I ∉ st.modules) :
    createMain st I =
      (match st.registry with
       | none => (1, { st with modules := st.modules ++ [I] })
       | some c => (0, { st with modules := st.modules ++ [I], registry := some (update_modules_cmake c I).1 })) := by
  unfold createMain
  rw [if_neg (by simp [h1]), if_neg (by simp [h2]), if_neg (by simp [h3]),
    if_neg (by simpa using h4)]

/-- Successful `createMain` runs: the exit-0 case implies every guard
passed and characterizes the final state. -/
theorem createMain_exit0 {st : FsState} {I : String}
    (h : (createMain st I).1 = 0) :
    validate_module_id I = true ∧ I ∉ st.modules ∧
      ∃ c, st.registry = some c ∧
        createMain st I = (0,
          { st with modules := st.modules ++ [I],
                    registry := some (update_modules_cmake c I).1 }) := by
  have h1 : st.templateOk = true := by
    cases ht : st.templateOk with
    | true => rfl
    | false =>
      unfold createMain at h
      rw [ht] at h
      simp at h
  have h2 : st.modulesRootOk = true := by
    cases ht : st.modulesRootOk with
    | true => rfl
    | false =>
      unfold createMain at h
      rw [h1, ht] at h
      simp at h
  have h3 : validate_module_id I = true := by
    cases hv : validate_module_id I with
    | true => rfl
    | false =>
      unfold createMain at h
      rw [h1, h2, hv] at h
      simp at h
  have h4 : I ∉ st.modules := by
    intro hm
    unfold createMain at h
    rw [h1, h2, h3] at h
    simp only [Bool.not_true, if_neg (by simp : ¬((false : Bool) = true)),
      if_pos hm] at h
    exact absurd h (by simp)
  refine ⟨h3, h4, ?_⟩
  cases hreg : st.registry with
  | none =>
    rw [createMain_eq_of h1 h2 h3 h4, hreg] at h
    simp at h
  | some c =>
    refine ⟨c, rfl, ?_⟩
    rw [createMain_eq_of h1 h2 h3 h4, hreg]

/-- Equation for `removeMain` past its preconditions: the two steps are computed from
the pre-state, registry step first, and assembled as in the source. -/
theorem removeMain_eq {st : FsState} {I : String} (fault : Bool)
    (hroot : st.modulesRootOk = true) (hmem : I ∈ st.modules) :
    removeMain st I fault =
      ⟨if (removeCmakeStep st.registry I).2.1 && (removeDirStep st.modules I fault).2.1
          then 0 else 1,
       { st with registry := (removeCmakeStep st.registry I).1,
                 modules := (removeDirStep st.modules I fault).1 },
       (removeCmakeStep st.registry I).2.1,
       (removeDirStep st.modules I fault).2.1,
       (removeCmakeStep st.registry I).2.2 ++ (removeDirStep st.modules I fault).2.2 ++
         [if (removeCmakeStep st.registry I).2.1 && (removeDirStep st.modules I fault).2.1
            then "Module \x27" ++ I ++ "\x27 has been successfully removed!"
            else "Module \x27" ++ I ++ "\x27 was partially removed. Please check manually."]⟩ := by
  unfold removeMain
  rw [if_neg (by simp [hroot]), if_neg (by simp [hmem])]

/-! ## Order lemmas for the sorting model -/

theorem lexLe_total (a b : List Char) : lexLe a b = true ∨ lexLe b a = true := by
  induction a generalizing b with
  | nil => exact Or.inl rfl
  | cons c cs ih =>
    cases b with
    | nil => exact Or.inr rfl
    | cons d ds =>
      by_cases hcd : c = d
      · subst hcd
        rcases ih ds with h | h
        · left; simpa [lexLe] using h
        · right; simpa [lexLe] using h
      · rcases lt_or_gt_of_ne hcd with hlt | hgt
        · left; simp [lexLe, if_neg hcd, hlt]
        · right; simp [lexLe, if_neg (Ne.symm hcd), hgt]

theorem lexLe_trans : ∀ {a b c : List Char},
    lexLe a b = true → lexLe b c = true → lexLe a c = true := by
  intro a
  induction a with
  | nil => intro b c _ _; rfl
  | cons x xs ih =>
    intro b c hab hbc
    cases b with
    | nil => simp [lexLe] at hab
    | cons y ys =>
      cases c with
      | nil => simp [lexLe] at hbc
      | cons z zs =>
        simp only [lexLe] at hab hbc ⊢
        by_cases hxy : x = y
        · subst hxy
          rw [if_pos rfl] at hab
          by_cases hxz : x = z
          · subst hxz
            rw [if_pos rfl] at hbc ⊢
            exact ih hab hbc
          · rw [if_neg hxz] at hbc ⊢
            exact hbc
        · rw [if_neg hxy] at hab
          have hlt : x < y := of_decide_eq_true hab
          by_cases hyz : y = z
          · subst hyz
            rw [if_neg hxy]
            exact hab
          · rw [if_neg hyz] at hbc
            have hlt2 : y < z := of_decide_eq_true hbc
            have hxz : x < z := lt_trans hlt hlt2
            rw [if_neg (ne_of_lt hxz)]
            exact decide_eq_true hxz

/-! ## Message-shape lemmas for removeModule reporting -/

theorem removeCmakeStep_shape (reg : Option String) (I : String) :
    ∃ m : String, (removeCmakeStep reg I).2.2 = [m] ∧
      m.data.head? = some (if (removeCmakeStep reg I).2.1 then 'R' else 'W') := by
  cases reg with
  | none => exact ⟨_, rfl, rfl⟩
  | some c =>
    cases hrm : (remove_from_cmake c I).2 with
    | true =>
      have he : removeCmakeStep (some c) I =
          (some (remove_from_cmake c I).1, true,
            ["Removed \x27" ++ I ++ "\x27 from CMakeLists.txt"]) := by
        simp only [removeCmakeStep]
        rw [if_pos hrm]
      rw [he]
      refine ⟨_, rfl, ?_⟩
      rw [String.data_append, List.head?_append]
      rfl
    | false =>
      have he : removeCmakeStep (some c) I =
          (some (remove_from_cmake c I).1, false,
            ["Warning: Module \x27" ++ I ++ "\x27 was not found in CMakeLists.txt"]) := by
        simp only [removeCmakeStep]
        rw [if_neg (by simp [hrm])]
      rw [he]
      refine ⟨_, rfl, ?_⟩
      rw [String.data_append, List.head?_append]
      rfl

theorem removeDirStep_shape {mods : List String} {I : String} (h : I ∈ mods)
    (fault : Bool) :
    ∃ d1 d2 : String, (removeDirStep mods I fault).2.2 = [d1, d2] ∧
      d2.data.head? = some (if (removeDirStep mods I fault).2.1 then 'S' else 'E') ∧
      (removeDirStep mods I fault).2.1 = !fault := by
  cases fault with
  | true =>
    have he : removeDirStep mods I true =
        (mods, false,
          ["Removing module directory: modules/" ++ I,
           "Error removing directory modules/" ++ I ++ ": OSError"]) := by
      simp only [removeDirStep]
      rw [if_pos h, if_pos trivial]
    rw [he]
    refine ⟨_, _, rfl, ?_, rfl⟩
    rw [String.data_append, List.head?_append]
    rfl
  | false =>
    have he : removeDirStep mods I false =
        (mods.filter (fun n => n != I), true,
          ["Removing module directory: modules/" ++ I,
           "Successfully removed directory for module \x27" ++ I ++ "\x27"]) := by
      simp only [removeDirStep]
      rw [if_pos h, if_neg (by simp)]
    rw [he]
    refine ⟨_, _, rfl, ?_, rfl⟩
    rw [String.data_append, List.head?_append]
    rfl

/-! ## Walk lemma for the substitution pass -/

theorem copy_and_substitute_walk_append (subs : List (String × String))
    (xs ys : List FileData) :
    copy_and_substitute_walk subs (xs ++ ys) =
      copy_and_substitute_walk subs xs ++ copy_and_substitute_walk subs ys := by
  induction xs with
  | nil => rfl
  | cons f fs ih =>
    show substitute_in_file subs f :: copy_and_substitute_walk subs (fs ++ ys) = _
    rw [ih]
    rfl

/-! ## Claim theorems -/

/-- Claim C2: `validate_module_id s` is true exactly when `s` has exactly
4 characters, every character is alphanumeric, the first character is a
letter, and every character is uppercase (fixed under `toUpper`, the
reading under which digits are allowed, as the validator and its callers
require); in particular the empty string and `"ab1"` are rejected. -/
theorem claim_C2 (s : String) :
    (validate_module_id s = true ↔
      (s.data.length = 4 ∧ (∀ c ∈ s.data, c.isAlphanum = true) ∧
        (∀ c ∈ s.data.take 1, c.isAlpha = true) ∧ (∀ c ∈ s.data, c.toUpper = c))) ∧
    validate_module_id "" = false ∧ validate_module_id "ab1" = false := by
  refine ⟨?_, by decide, by decide⟩
  constructor
  · intro h
    unfold validate_module_id at h
    split_ifs at h with h1 h2 h3 h4 h5
    refine ⟨?_, ?_, ?_, ?_⟩
    · rw [bne_iff_ne] at h2
      exact not_ne_iff.mp h2
    · intro c hc
      cases hall : s.data.all Char.isAlphanum with
      | false => exact absurd (by simp [hall]) h3
      | true => exact List.all_eq_true.mp hall c hc
    · intro c hc
      cases hd : s.data with
      | nil => rw [hd] at hc; simp at hc
      | cons a as =>
        rw [hd] at hc
        have hca : c = a := by simpa using hc
        subst hca
        rw [hd] at h4
        have h4' : ¬((!c.isAlpha) = true) := h4
        cases hfa : c.isAlpha with
        | true => rfl
        | false => exact absurd (by simp [hfa]) h4'
    · intro c hc
      have h5' : s.data = s.data.map Char.toUpper := by
        cases hb : (s.data != s.data.map Char.toUpper) with
        | true => exact absurd hb h5
        | false => simpa using hb
      exact (map_eq_self_iff_forall.mp h5'.symm) c hc
  · rintro ⟨hlen, halnum, hfirst, hupper⟩
    have hne : s.data ≠ [] := by
      intro hh
      rw [hh] at hlen
      simp at hlen
    obtain ⟨a, as, hd⟩ := List.exists_cons_of_ne_nil hne
    have hfa : a.isAlpha = true := by
      refine hfirst a ?_
      rw [hd]
      simp
    have hall : s.data.all Char.isAlphanum = true := List.all_eq_true.mpr halnum
    have hmap : s.data.map Char.toUpper = s.data := map_eq_self_iff_forall.mpr hupper
    unfold validate_module_id
    rw [hd] at hlen hall hmap ⊢
    rw [if_neg (by simp), if_neg (by simp [hlen]), if_neg (by simp [hall]),
      if_neg (by simp [hfa]), if_neg (by simp [hmap])]

/-- Claim C10: `update_modules_cmake` appends the directive plus exactly
one newline without inspecting the existing file ending.  Witness content
`"# modules registry"` lacks a trailing newline and has no line for
`TEST`; the add concatenates the directive onto that last line, the
result is a single physical line, and its stripped text is not the
directive (so no registration line for `TEST` exists even after the
add). -/
theorem claim_C10 :
    update_modules_cmake "# modules registry" "TEST" =
      ("# modules registryadd_subdirectory(TEST)\n", true) ∧
    ((pylines "# modules registry").all
      (fun l => pyStripS l != directive "TEST")) = true ∧
    pylines "# modules registryadd_subdirectory(TEST)\n" =
      ["# modules registryadd_subdirectory(TEST)\n"] ∧
    ((pylines "# modules registryadd_subdirectory(TEST)\n").all
      (fun l => pyStripS l != directive "TEST")) = true := by
  refine ⟨by decide, by decide, by decide, by decide⟩

/-- Counterexample for claim C4: the no-op condition of
`update_modules_cmake` is a substring test on the whole content, not a
line test.  The content `"# add_subdirectory(TEST)\n"` has no line whose
trimmed text is the directive for `TEST`, yet the add is a no-op instead
of appending. -/
theorem claim_C4_counterexample :
    ((pylines "# add_subdirectory(TEST)\n").all
      (fun l => pyStripS l != directive "TEST")) = true ∧
    update_modules_cmake "# add_subdirectory(TEST)\n" "TEST" =
      ("# add_subdirectory(TEST)\n", false) := by
  refine ⟨by decide, by decide⟩

/-- Claim C4 (amended): `add(I)` appends the directive followed by one
newline to the end of the file, unless the directive already occurs as a
substring anywhere in the content, in which case it is a no-op reporting
"already present" and the file is unchanged. -/
theorem claim_C4 (c I : String) :
    (hasSubstrS (directive I) c = true → update_modules_cmake c I = (c, false)) ∧
    (hasSubstrS (directive I) c = false →
      update_modules_cmake c I = (c ++ directive I ++ "\n", true)) := by
  unfold update_modules_cmake
  constructor
  · intro h
    rw [if_pos h]
  · intro h
    rw [if_neg (by simp [h])]

theorem claim_C4_witness :
    hasSubstrS (directive "TEST") "" = false ∧
    update_modules_cmake "" "TEST" = ("" ++ directive "TEST" ++ "\n", true) :=
  ⟨by decide, (claim_C4 "" "TEST").2 (by decide)⟩

/-- Claim C3: `remove_from_cmake` removes exactly the lines whose trimmed
content equals the directive (the remaining lines are the filter of the
original line sequence, so their relative order is unchanged), returns
`true` exactly when at least one line matched, and leaves the content
untouched when no line matched. -/
theorem claim_C3 (c I : String) :
    ((remove_from_cmake c I).2 = true ↔ ∃ l ∈ pylines c, pyStripS l = directive I) ∧
    ((remove_from_cmake c I).2 = false → remove_from_cmake c I = (c, false)) ∧
    ((remove_from_cmake c I).2 = true →
      pylines (remove_from_cmake c I).1 =
        (pylines c).filter (fun l => pyStripS l != directive I)) := by
  refine ⟨remove_from_cmake_flag c I, ?_, fun h => remove_from_cmake_lines h⟩
  intro h
  rw [remove_from_cmake_eq] at h ⊢
  by_cases hlt : (((pylines c).filter (fun l => pyStripS l != directive I)).length <
      (pylines c).length)
  · rw [if_pos hlt] at h
    simp at h
  · rw [if_neg hlt]

theorem claim_C3_witness :
    pylines (remove_from_cmake "add_subdirectory(TAAA)\nkeep\n" "TAAA").1 =
      (pylines "add_subdirectory(TAAA)\nkeep\n").filter
        (fun l => pyStripS l != directive "TAAA") :=
  (claim_C3 "add_subdirectory(TAAA)\nkeep\n" "TAAA").2.2 (by decide)

/-- Counterexample for claim C8: starting from the file `"x"` (no line
for `TEST`, no trailing newline), one `add` and also two consecutive
`add`s leave zero lines whose trimmed text is the directive — not
exactly one — because the appended directive is concatenated onto the
unterminated last line. -/
theorem claim_C8_counterexample :
    ((pylines "x").all (fun l => pyStripS l != directive "TEST")) = true ∧
    ((pylines (update_modules_cmake "x" "TEST").1).filter
      (fun l => pyStripS l == directive "TEST")).length = 0 ∧
    ((pylines (update_modules_cmake (update_modules_cmake "x" "TEST").1 "TEST").1).filter
      (fun l => pyStripS l == directive "TEST")).length = 0 := by
  refine ⟨by decide, by decide, by decide⟩

/-- Claim C8 (amended): `add` is idempotent on the file content —
`add(I); add(I)` produces the same file as a single `add(I)`.  Starting
from a file that contains no occurrence of the directive substring and is
empty or newline-terminated, the result of `add(I)` contains exactly one
line for `I` (the hypothesis that the directive holds no newline is
satisfied by every validated identifier). -/
theorem claim_C8 (c I : String)
    (hI : (directive I).data.all (fun ch => ch != '\n') = true) :
    ((update_modules_cmake (update_modules_cmake c I).1 I).1 =
      (update_modules_cmake c I).1) ∧
    (hasSubstrS (directive I) c = false →
      (c.data = [] ∨ c.data.getLast? = some '\n') →
      ((pylines (update_modules_cmake c I).1).filter
        (fun l => pyStripS l == directive I)).length = 1) := by
  constructor
  · by_cases h : hasSubstrS (directive I) c = true
    · have e1 : update_modules_cmake c I = (c, false) := by
        unfold update_modules_cmake
        rw [if_pos h]
      rw [e1]
      show (update_modules_cmake c I).1 = c
      rw [e1]
    · have e1 : update_modules_cmake c I = (c ++ directive I ++ "\n", true) := by
        unfold update_modules_cmake
        rw [if_neg (by simp [h])]
      have h2 : hasSubstrS (directive I) (c ++ directive I ++ "\n") = true := by
        show hasSubstr (directive I).data ((c ++ directive I) ++ "\n").data = true
        rw [String.data_append, String.data_append]
        exact hasSubstr_append_self _ _ _
      have e2 : update_modules_cmake (c ++ directive I ++ "\n") I =
          (c ++ directive I ++ "\n", false) := by
        unfold update_modules_cmake
        rw [if_pos h2]
      rw [e1]
      show (update_modules_cmake (c ++ directive I ++ "\n") I).1 =
        c ++ directive I ++ "\n"
      rw [e2]
  · intro hno hnl
    have e1 : update_modules_cmake c I = (c ++ directive I ++ "\n", true) := by
      unfold update_modules_cmake
      rw [if_neg (by simp [hno])]
    rw [e1]
    show ((pylines ((c ++ directive I) ++ "\n")).filter
      (fun l => pyStripS l == directive I)).length = 1
    rw [String.append_assoc]
    have hline : isLine (directive I ++ "\n").data = true := by
      rw [String.data_append]
      show isLine ((directive I).data ++ ['\n']) = true
      simp only [isLine, Bool.and_eq_true, List.all_eq_true]
      refine ⟨by simp, ?_⟩
      intro x hx
      rw [List.dropLast_concat] at hx
      exact List.all_eq_true.mp hI x hx
    rw [pylines_append_line hnl hline, List.filter_append]
    have hz : (pylines c).filter (fun l => pyStripS l == directive I) = [] := by
      rw [List.filter_eq_nil_iff]
      intro l hl hbeq
      have heq : pyStripS l = directive I := by simpa using hbeq
      exact absurd (hasSubstr_of_line_strip hl heq) (by simp [hno])
    rw [hz]
    simp [pyStripS_directive]

theorem claim_C8_witness :
    ((pylines (update_modules_cmake "" "TEST").1).filter
      (fun l => pyStripS l == directive "TEST")).length = 1 :=
  (claim_C8 "" "TEST" (by decide)).2 (by decide) (Or.inl rfl)

/-- Claim C5: when validation fails or the target module directory
already exists, `createMain` aborts with a non-zero exit code and the
modelled filesystem state (pre-existing module directories and the
registry file) is entirely unmodified. -/
theorem claim_C5 (st : FsState) (I : String)
    (h : validate_module_id I = false ∨ I ∈ st.modules) :
    (createMain st I).1 ≠ 0 ∧ (createMain st I).2 = st := by
  unfold createMain
  by_cases h1 : (!st.templateOk) = true
  · rw [if_pos h1]
    exact ⟨by simp, rfl⟩
  · rw [if_neg h1]
    by_cases h2 : (!st.modulesRootOk) = true
    · rw [if_pos h2]
      exact ⟨by simp, rfl⟩
    · rw [if_neg h2]
      rcases h with hv | hm
      · rw [if_pos (by simp [hv])]
        exact ⟨by simp, rfl⟩
      · by_cases hv : (!validate_module_id I) = true
        · rw [if_pos hv]
          exact ⟨by simp, rfl⟩
        · rw [if_neg hv, if_pos hm]
          exact ⟨by simp, rfl⟩

theorem claim_C5_witness :
    (validate_module_id "ab1" = false ∨ "ab1" ∈ (FsState.mk true true [] (some "")).modules) ∧
    (createMain ⟨true, true, [], some ""⟩ "ab1").1 ≠ 0 ∧
    (createMain ⟨true, true, [], some ""⟩ "ab1").2 = ⟨true, true, [], some ""⟩ :=
  ⟨Or.inl (by decide), claim_C5 ⟨true, true, [], some ""⟩ "ab1" (Or.inl (by decide))⟩

/-- Counterexample for claim C6: a replacement value may itself mention a
placeholder token; because `substitute_in_file` replaces the tokens in a
fixed order by plain substring replacement without re-scanning, the
output text then contains a literal placeholder token
(`__MOD__` below), contradicting "after substitution the file contains
no literal occurrence of any placeholder token". -/
theorem claim_C6_counterexample :
    substitute_in_file
      (standardSubs "TEST" "my __MOD__ module" "d" "b" "a" "e" "u")
      (FileData.text "name = __NAME__;") =
      FileResult.substituted "name = my __MOD__ module;" ∧
    hasSubstrS "__MOD__" "name = my __MOD__ module;" = true := by
  refine ⟨by decide, by decide⟩

/-- Claim C6 (amended): the walk processes every file independently — an
unreadable file in the middle yields an error report for itself and does
not stop or affect the processing of the files before or after it; a
text file is rewritten by applying plain substring replacement of each
placeholder token by its value, token by token in the fixed mapping
order (so a value that mentions an earlier-processed token re-introduces
a literal token in the output, see the counterexample); a file that fails
to decode is reported skipped and left byte-for-byte unchanged; and a
text containing no occurrence of any listed token is left unchanged. -/
theorem claim_C6 (subs : List (String × String)) (fs1 fs2 : List FileData)
    (f : FileData) (s : String) (bp ep : Nat) :
    (copy_and_substitute_walk subs (fs1 ++ f :: fs2) =
      copy_and_substitute_walk subs fs1 ++
        substitute_in_file subs f :: copy_and_substitute_walk subs fs2) ∧
    substitute_in_file subs (FileData.text s) =
      FileResult.substituted (applySubs subs s) ∧
    substitute_in_file subs (FileData.binary bp) = FileResult.skippedBinary bp ∧
    substitute_in_file subs (FileData.unreadable ep) = FileResult.errored ep ∧
    (subs.all (fun pv => !(hasSubstrS pv.1 s)) = true → applySubs subs s = s) := by
  refine ⟨?_, rfl, rfl, rfl, applySubs_no_occ⟩
  rw [copy_and_substitute_walk_append]
  rfl

theorem claim_C6_witness :
    applySubs (standardSubs "TEST" "T" "D" "B" "A" "E" "U") "plain text" =
      "plain text" :=
  (claim_C6 (standardSubs "TEST" "T" "D" "B" "A" "E" "U") [] []
    (FileData.text "") "plain text" 0 0).2.2.2.2 (by decide)

/-- Claim C9: `list_available_modules` returns exactly the names of the
directory entries outside the reserved set `{common, inc, .git}` (regular
files and reserved directories never appear), and — when the top-level
entry names are distinct, as they are on a real filesystem — the result
is duplicate-free and sorted ascending in code-point lexicographic order
(the order of Python `sorted`). -/
theorem claim_C9 (entries : List DirEntry)
    (hnodup : (entries.map DirEntry.name).Nodup) :
    (∀ x, x ∈ list_available_modules entries ↔
      ∃ e ∈ entries, e.isDir = true ∧ x = e.name ∧
        e.name ∉ (["common", "inc", ".git"] : List String)) ∧
    (list_available_modules entries).Nodup ∧
    List.Sorted strLe (list_available_modules entries) := by
  have hpred : ∀ e : DirEntry,
      ((e.isDir && !(e.name == "common" || e.name == "inc" || e.name == ".git")) = true ↔
        (e.isDir = true ∧ e.name ∉ (["common", "inc", ".git"] : List String))) := by
    intro e
    constructor
    · intro h
      rw [Bool.and_eq_true] at h
      obtain ⟨hdir, hres⟩ := h
      rw [Bool.not_eq_true', Bool.or_eq_false_iff] at hres
      obtain ⟨hres, h3⟩ := hres
      rw [Bool.or_eq_false_iff] at hres
      obtain ⟨h1, h2⟩ := hres
      refine ⟨hdir, ?_⟩
      intro hmem
      simp only [List.mem_cons, List.not_mem_nil, or_false] at hmem
      rcases hmem with hh | hh | hh
      · exact absurd hh (by simpa using h1)
      · exact absurd hh (by simpa using h2)
      · exact absurd hh (by simpa using h3)
    · rintro ⟨hdir, hmem⟩
      rw [Bool.and_eq_true]
      refine ⟨hdir, ?_⟩
      rw [Bool.not_eq_true', Bool.or_eq_false_iff]
      refine ⟨?_, ?_⟩
      · rw [Bool.or_eq_false_iff]
        constructor
        · exact beq_eq_false_iff_ne.mpr (fun hh => hmem (by simp [hh]))
        · exact beq_eq_false_iff_ne.mpr (fun hh => hmem (by simp [hh]))
      · exact beq_eq_false_iff_ne.mpr (fun hh => hmem (by simp [hh]))
  refine ⟨?_, ?_, ?_⟩
  · intro x
    rw [list_available_modules, List.mem_insertionSort]
    simp only [List.mem_map, List.mem_filter]
    constructor
    · rintro ⟨e, ⟨he, hp⟩, rfl⟩
      obtain ⟨hdir, hnm⟩ := (hpred e).mp hp
      exact ⟨e, he, hdir, rfl, hnm⟩
    · rintro ⟨e, he, hdir, rfl, hnm⟩
      exact ⟨e, ⟨he, (hpred e).mpr ⟨hdir, hnm⟩⟩, rfl⟩
  · have hperm := List.perm_insertionSort strLe
      ((entries.filter (fun e => e.isDir &&
        !(e.name == "common" || e.name == "inc" || e.name == ".git"))).map DirEntry.name)
    refine (hperm.nodup_iff).mpr ?_
    exact ((List.filter_sublist entries).map DirEntry.name).nodup hnodup
  · exact @List.sorted_insertionSort String strLe _
      ⟨fun a b => lexLe_total a.data b.data⟩
      ⟨fun a b c hab hbc => lexLe_trans hab hbc⟩ _

theorem claim_C9_witness :
    ("VERB" ∈ list_available_modules
        [⟨"inc", true⟩, ⟨"VERB", true⟩, ⟨"x.txt", false⟩] ↔
      ∃ e ∈ [(⟨"inc", true⟩ : DirEntry), ⟨"VERB", true⟩, ⟨"x.txt", false⟩],
        e.isDir = true ∧ "VERB" = e.name ∧
          e.name ∉ (["common", "inc", ".git"] : List String)) :=
  (claim_C9 [⟨"inc", true⟩, ⟨"VERB", true⟩, ⟨"x.txt", false⟩] (by decide)).1 "VERB"

/-- The printed output of a `removeMain` run past its preconditions
determines both step results: the registry-step message starts with `R`
exactly on success and `W` on failure, and the second directory-step
message starts with `S` on success and `E` on failure. -/
theorem removeMain_report_det {st st' : FsState} {I : String} {fault fault' : Bool}
    (hroot : st.modulesRootOk = true) (hmem : I ∈ st.modules)
    (hroot' : st'.modulesRootOk = true) (hmem' : I ∈ st'.modules)
    (hout : (removeMain st I fault).output = (removeMain st' I fault').output) :
    (removeMain st I fault).regOK = (removeMain st' I fault').regOK ∧
    (removeMain st I fault).dirOK = (removeMain st' I fault').dirOK := by
  rw [removeMain_eq fault hroot hmem, removeMain_eq fault' hroot' hmem'] at hout ⊢
  obtain ⟨m, hm, hmh⟩ := removeCmakeStep_shape st.registry I
  obtain ⟨m', hm', hmh'⟩ := removeCmakeStep_shape st'.registry I
  obtain ⟨d1, d2, hd, hdh, hdf⟩ := removeDirStep_shape hmem fault
  obtain ⟨d1', d2', hd', hdh', hdf'⟩ := removeDirStep_shape hmem' fault'
  show (removeCmakeStep st.registry I).2.1 = (removeCmakeStep st'.registry I).2.1 ∧
    (removeDirStep st.modules I fault).2.1 = (removeDirStep st'.modules I fault').2.1
  have hout' : m :: d1 :: d2 ::
      [if (removeCmakeStep st.registry I).2.1 && (removeDirStep st.modules I fault).2.1
        then "Module \x27" ++ I ++ "\x27 has been successfully removed!"
        else "Module \x27" ++ I ++ "\x27 was partially removed. Please check manually."] =
      m' :: d1' :: d2' ::
      [if (removeCmakeStep st'.registry I).2.1 && (removeDirStep st'.modules I fault').2.1
        then "Module \x27" ++ I ++ "\x27 has been successfully removed!"
        else "Module \x27" ++ I ++ "\x27 was partially removed. Please check manually."] := by
    have h1 := hout
    rw [hm, hm', hd, hd'] at h1
    simpa using h1
  have hmeq : m = m' := (List.cons_eq_cons.mp hout').1
  have hd2eq : d2 = d2' := by
    have h2 := (List.cons_eq_cons.mp hout').2
    have h3 := (List.cons_eq_cons.mp h2).2
    exact (List.cons_eq_cons.mp h3).1
  constructor
  · have hh : m.data.head? = m'.data.head? := by rw [hmeq]
    rw [hmh, hmh'] at hh
    have hh' := Option.some.inj hh
    cases hb : (removeCmakeStep st.registry I).2.1 <;>
      cases hb' : (removeCmakeStep st'.registry I).2.1
    · rfl
    · rw [hb, hb'] at hh'
      simp at hh'
    · rw [hb, hb'] at hh'
      simp at hh'
    · rfl
  · have hh : d2.data.head? = d2'.data.head? := by rw [hd2eq]
    rw [hdh, hdh'] at hh
    have hh' := Option.some.inj hh
    cases hb : (removeDirStep st.modules I fault).2.1 <;>
      cases hb' : (removeDirStep st'.modules I fault').2.1
    · rfl
    · rw [hb, hb'] at hh'
      simp at hh'
    · rw [hb, hb'] at hh'
      simp at hh'
    · rfl

/-- Claim C7: past the existence precondition, `removeMain` computes both
steps from the pre-state with the registry edit sequenced before the
directory deletion (its messages come first and its result is
independent of the directory fault), the directory deletion is attempted
and carried out even if the registry step failed, exit code 0 holds
exactly when both steps succeeded, and the printed report determines the
pair of step outcomes, so partial success is distinguishable from total
success and from total failure. -/
theorem claim_C7 (st : FsState) (I : String) (fault : Bool)
    (hroot : st.modulesRootOk = true) (hmem : I ∈ st.modules) :
    ((removeMain st I fault).exitCode = 0 ↔
      (removeMain st I fault).regOK = true ∧ (removeMain st I fault).dirOK = true) ∧
    ((removeMain st I fault).state.registry = (removeCmakeStep st.registry I).1 ∧
      (removeMain st I fault).state.modules = (removeDirStep st.modules I fault).1 ∧
      ∃ summary, (removeMain st I fault).output =
        (removeCmakeStep st.registry I).2.2 ++
          (removeDirStep st.modules I fault).2.2 ++ [summary]) ∧
    (fault = false →
      (removeMain st I fault).dirOK = true ∧
        I ∉ (removeMain st I fault).state.modules) ∧
    (∀ st' fault', st'.modulesRootOk = true → I ∈ st'.modules →
      (removeMain st I fault).output = (removeMain st' I fault').output →
      (removeMain st I fault).regOK = (removeMain st' I fault').regOK ∧
      (removeMain st I fault).dirOK = (removeMain st' I fault').dirOK) := by
  refine ⟨?_, ?_, ?_, ?_⟩
  · rw [removeMain_eq fault hroot hmem]
    show (if (removeCmakeStep st.registry I).2.1 && (removeDirStep st.modules I fault).2.1
        then 0 else 1) = 0 ↔
      (removeCmakeStep st.registry I).2.1 = true ∧
        (removeDirStep st.modules I fault).2.1 = true
    cases hb : ((removeCmakeStep st.registry I).2.1 &&
        (removeDirStep st.modules I fault).2.1) with
    | false =>
      rw [if_neg (by simp [hb])]
      constructor
      · intro h
        exact absurd h (by simp)
      · rintro ⟨ha, hc⟩
        rw [ha, hc] at hb
        simp at hb
    | true =>
      rw [if_pos (by simp [hb])]
      simp only [Bool.and_eq_true] at hb
      simp [hb.1, hb.2]
  · rw [removeMain_eq fault hroot hmem]
    exact ⟨rfl, rfl, _, rfl⟩
  · rintro rfl
    rw [removeMain_eq false hroot hmem]
    have hstep : removeDirStep st.modules I false =
        (st.modules.filter (fun n => n != I), true,
          ["Removing module directory: modules/" ++ I,
           "Successfully removed directory for module \x27" ++ I ++ "\x27"]) := by
      simp only [removeDirStep]
      rw [if_pos hmem, if_neg (by simp)]
    show (removeDirStep st.modules I false).2.1 = true ∧
      I ∉ (removeDirStep st.modules I false).1
    rw [hstep]
    refine ⟨rfl, ?_⟩
    intro hmf
    have := (List.mem_filter.mp hmf).2
    simp at this
  · intro st' fault' hroot' hmem' hout
    exact removeMain_report_det hroot hmem hroot' hmem' hout

theorem claim_C7_witness :
    ((removeMain ⟨true, true, ["DEMO"], some "add_subdirectory(DEMO)\n"⟩
        "DEMO" false).exitCode = 0 ↔
      (removeMain ⟨true, true, ["DEMO"], some "add_subdirectory(DEMO)\n"⟩
        "DEMO" false).regOK = true ∧
      (removeMain ⟨true, true, ["DEMO"], some "add_subdirectory(DEMO)\n"⟩
        "DEMO" false).dirOK = true) :=
  (claim_C7 ⟨true, true, ["DEMO"], some "add_subdirectory(DEMO)\n"⟩
    "DEMO" false rfl (by decide)).1

/-- Counterexample for claim C1: with the registry file missing,
`create("TEST")` copies the module directory, then aborts with exit 1 in
`update_modules_cmake` — the completed operation leaves `modules/TEST`
on disk with no registry line for `TEST`, so the claimed invariant does
not hold after every completion under partial failure. -/
theorem claim_C1_counterexample :
    createMain ⟨true, true, [], none⟩ "TEST" = (1, ⟨true, true, ["TEST"], none⟩) ∧
    "TEST" ∈ (createMain ⟨true, true, [], none⟩ "TEST").2.modules ∧
    linePresent (createMain ⟨true, true, [], none⟩ "TEST").2.registry "TEST" = false := by
  refine ⟨by decide, by decide, by decide⟩

/-- Claim C1 (amended): for a registry in which every occurrence of the
directive substring lies on a registration line of its own and whose text
is empty or newline-terminated, the invariant "a registry line for X
exists iff `modules/X` exists" holds for the operated identifier after
every `create(X)` or `remove(X)` that completes fully successfully
(exit code 0); a completion under partial failure is reported through a
non-zero exit code and may leave the invariant broken (see the
counterexample). -/
theorem claim_C1 (st : FsState) (I : String) (fault : Bool)
    (hnl : ∀ c, st.registry = some c → c.data = [] ∨ c.data.getLast? = some '\n')
    (hcoh : ∀ c, st.registry = some c → hasSubstrS (directive I) c = true →
      linePresent (some c) I = true) :
    ((createMain st I).1 = 0 →
      (linePresent (createMain st I).2.registry I = true ↔
        I ∈ (createMain st I).2.modules)) ∧
    ((removeMain st I fault).exitCode = 0 →
      (linePresent (removeMain st I fault).state.registry I = true ↔
        I ∈ (removeMain st I fault).state.modules)) := by
  constructor
  · intro h0
    obtain ⟨hv, hnm, c, hreg, heq⟩ := createMain_exit0 h0
    rw [heq]
    have hmemI : I ∈ st.modules ++ [I] := by simp
    show linePresent (some (update_modules_cmake c I).1) I = true ↔
      I ∈ st.modules ++ [I]
    by_cases hs : hasSubstrS (directive I) c = true
    · have hupd : (update_modules_cmake c I).1 = c := by
        unfold update_modules_cmake
        rw [if_pos hs]
      rw [hupd]
      simp [hcoh c hreg hs, hmemI]
    · have hupd : (update_modules_cmake c I).1 = (c ++ directive I) ++ "\n" := by
        unfold update_modules_cmake
        rw [if_neg (by simp [hs])]
      rw [hupd, String.append_assoc]
      have hline : isLine (directive I ++ "\n").data = true := directive_no_newline hv
      show ((pylines (c ++ (directive I ++ "\n"))).any
        (fun l => pyStripS l == directive I)) = true ↔ I ∈ st.modules ++ [I]
      rw [pylines_append_line (hnl c hreg) hline, List.any_append]
      simp [pyStripS_directive, hmemI]
  · intro h0
    have hroot : st.modulesRootOk = true := by
      cases hb : st.modulesRootOk with
      | true => rfl
      | false =>
        unfold removeMain at h0
        rw [hb] at h0
        simp at h0
    have hmem : I ∈ st.modules := by
      by_contra hm
      unfold removeMain at h0
      rw [if_neg (by simp [hroot]), if_pos hm] at h0
      simp at h0
    rw [removeMain_eq fault hroot hmem] at h0 ⊢
    have h0' : (if (removeCmakeStep st.registry I).2.1 &&
        (removeDirStep st.modules I fault).2.1 then 0 else 1) = 0 := h0
    have hboth : ((removeCmakeStep st.registry I).2.1 &&
        (removeDirStep st.modules I fault).2.1) = true := by
      cases hb : ((removeCmakeStep st.registry I).2.1 &&
          (removeDirStep st.modules I fault).2.1) with
      | true => rfl
      | false =>
        rw [if_neg (by simp [hb])] at h0'
        exact absurd h0' (by simp)
    simp only [Bool.and_eq_true] at hboth
    obtain ⟨hregOK, hdirOK⟩ := hboth
    obtain ⟨d1, d2, hd, hdh, hdf⟩ := removeDirStep_shape hmem fault
    have hfaultF : fault = false := by
      rw [hdf] at hdirOK
      cases fault with
      | false => rfl
      | true => exact absurd hdirOK (by simp)
    subst hfaultF
    cases hreg : st.registry with
    | none =>
      rw [hreg] at hregOK
      exact absurd hregOK (by simp [removeCmakeStep])
    | some c =>
      rw [hreg] at hregOK
      have hrm : (remove_from_cmake c I).2 = true := by
        cases hb : (remove_from_cmake c I).2 with
        | true => rfl
        | false =>
          have hfl : (removeCmakeStep (some c) I).2.1 = false := by
            simp only [removeCmakeStep]
            rw [if_neg (by simp [hb])]
          rw [hfl] at hregOK
          exact absurd hregOK (by simp)
      have hstep : removeCmakeStep (some c) I =
          (some (remove_from_cmake c I).1, true,
            ["Removed \x27" ++ I ++ "\x27 from CMakeLists.txt"]) := by
        simp only [removeCmakeStep]
        rw [if_pos hrm]
      have hdirstep : (removeDirStep st.modules I false).1 =
          st.modules.filter (fun n => n != I) := by
        simp only [removeDirStep]
        rw [if_pos hmem, if_neg (by simp)]
      show linePresent (removeCmakeStep (some c) I).1 I = true ↔
        I ∈ (removeDirStep st.modules I false).1
      rw [hstep, hdirstep]
      show ((pylines (remove_from_cmake c I).1).any
        (fun l => pyStripS l == directive I)) = true ↔
        I ∈ st.modules.filter (fun n => n != I)
      rw [remove_from_cmake_lines hrm]
      constructor
      · intro hany
        obtain ⟨l, hl, hb⟩ := List.any_eq_true.mp hany
        obtain ⟨-, hpred⟩ := List.mem_filter.mp hl
        rw [bne_iff_ne] at hpred
        exact absurd (by simpa using hb) hpred
      · intro hmf
        have := (List.mem_filter.mp hmf).2
        simp at this

theorem claim_C1_witness :
    linePresent (createMain ⟨true, true, ["DEMO"], some "add_subdirectory(DEMO)\n"⟩
        "TEST").2.registry "TEST" = true ↔
      "TEST" ∈ (createMain ⟨true, true, ["DEMO"], some "add_subdirectory(DEMO)\n"⟩
        "TEST").2.modules :=
  (claim_C1 ⟨true, true, ["DEMO"], some "add_subdirectory(DEMO)\n"⟩ "TEST" false
    (by
      intro c hc
      have hcc : c = "add_subdirectory(DEMO)\n" := (Option.some.inj hc).symm
      subst hcc
      exact Or.inr (by decide))
    (by
      intro c hc hs
      have hcc : c = "add_subdirectory(DEMO)\n" := (Option.some.inj hc).symm
      subst hcc
      exact absurd hs (by decide))).1 (by decide)

theorem claim_C2_witness :
    validate_module_id "TEST" = true ∧ validate_module_id "" = false ∧
      validate_module_id "ab1" = false :=
  ⟨(claim_C2 "TEST").1.mpr (by decide), (claim_C2 "").2.1, (claim_C2 "ab1").2.2⟩
